import Mathlib

/-!
Shallow embedding of the `exploration` component of this repository
(header `src/explore/explore.h`).  Probabilities are modelled as exact
rationals; machine floats in the original become `ℚ` here, so statements
about a 1e-6 tolerance are implied by exact equalities.  The header only
declares the functions; the bodies live in `explore_internal.h`, which is
not part of the source tree, so every body below is modelled from the
specification text and marked as such in its doc comment.
-/

namespace Exploration

/-- Status code `S_EXPLORATION_OK` from `explore.h` line 3. -/
def S_EXPLORATION_OK : Nat := 0

/-- Status code `E_EXPLORATION_BAD_RANGE` from `explore.h` line 4. -/
def E_EXPLORATION_BAD_RANGE : Nat := 1

/-- Status code `E_EXPLORATION_PDF_RANKING_SIZE_MISMATCH` from `explore.h` line 5. -/
def E_EXPLORATION_PDF_RANKING_SIZE_MISMATCH : Nat := 2

/-- Modelled from the spec: section 4.3 seed expansion (the implementation in
`explore_internal.h` is missing from the source tree).  A deterministic
64-bit mixing step used to turn a seed into a well-distributed value. -/
def mix64 (x : Nat) : Nat :=
  (x * 6364136223846793005 + 1442695040888963407) % 2 ^ 64

/-- Modelled from the spec: section 4.3, the byte-string seed form is mixed
through a deterministic non-cryptographic hash into a 64-bit integer.  The
concrete constants are unspecified by the spec; only determinism matters. -/
def hash_bytes (s : List Nat) : Nat :=
  s.foldl (fun h b => mix64 (h ^^^ b % 2 ^ 64)) 0

/-- Modelled from the spec: section 4.3, a deterministic uniform value in
[0,1) derived from a 64-bit seed. -/
def uniform01 (seed : Nat) : ℚ :=
  (mix64 seed : ℚ) / 2 ^ 64

/-- Modelled from the spec: section 4.3, the counter-based n-th uniform draw
for a seed (used by the continuous sampler, which needs two draws). -/
def uniform_draw (seed n : Nat) : ℚ :=
  uniform01 (mix64 seed + n)

/-- Modelled from the spec: section 4.1 `generate_epsilon_greedy`
(declared at `explore.h` lines 20-21; body absent from the source tree).
Writes `epsilon/N` to every slot of the pre-allocated buffer and adds
`1 - epsilon` at `top_action`.  Fails `BAD_RANGE` when epsilon is outside
[0,1] or the buffer is empty; an out-of-range `top_action` also fails
`BAD_RANGE`, the choice the spec recommends.  The result pairs the status
with the buffer contents after the call. -/
def generate_epsilon_greedy (epsilon : ℚ) (top_action : Nat) (pmf : List ℚ) :
    Nat × List ℚ :=
  let N := pmf.length
  if epsilon < 0 ∨ 1 < epsilon ∨ N = 0 ∨ N ≤ top_action then
    (E_EXPLORATION_BAD_RANGE, pmf)
  else
    (S_EXPLORATION_OK,
      List.ofFn (n := N) fun i =>
        epsilon / N + if i.1 = top_action then 1 - epsilon else 0)

/-- Modelled from the spec: section 4.1 `generate_softmax`
(declared at `explore.h` lines 35-36; body absent from the source tree).
Mismatched score/buffer lengths fail with the size-mismatch status, an
empty pair fails `BAD_RANGE`; otherwise, with `m` the maximum score, the
weight of slot `i` is `expf (lambda * (scores i - m))` and the buffer
receives the weights normalized by their sum, falling back to the uniform
distribution when that sum is zero.  The exponential cannot be computed in
`ℚ`, so it is passed in as the parameter `expf`; the spec only uses that
it is positive and monotone. -/
def generate_softmax (expf : ℚ → ℚ) (lambda : ℚ) (scores pmf : List ℚ) :
    Nat × List ℚ :=
  if scores.length ≠ pmf.length then
    (E_EXPLORATION_PDF_RANKING_SIZE_MISMATCH, pmf)
  else if scores.length = 0 then (E_EXPLORATION_BAD_RANGE, pmf)
  else
    let m := scores.foldl max scores.headI
    let w := scores.map fun s => expf (lambda * (s - m))
    let t := w.sum
    if t = 0 then
      (S_EXPLORATION_OK, List.replicate scores.length ((scores.length : ℚ)⁻¹))
    else (S_EXPLORATION_OK, w.map fun x => x / t)

/-- Modelled from the spec: section 4.1 `generate_bag`
(declared at `explore.h` lines 49-50; body absent from the source tree).
Each vote adds `1 / |top_actions|` to the slot it names, so a slot ends at
its vote count over the total vote count.  An empty vote list or an empty
buffer fails `BAD_RANGE`, and so does a vote naming a slot outside the
buffer, the choice the spec recommends. -/
def generate_bag (top_actions : List Nat) (pmf : List ℚ) : Nat × List ℚ :=
  let N := pmf.length
  if top_actions.length = 0 ∨ N = 0 ∨ ¬ (∀ a ∈ top_actions, a < N) then
    (E_EXPLORATION_BAD_RANGE, pmf)
  else
    (S_EXPLORATION_OK,
      List.ofFn (n := N) fun i =>
        (top_actions.count i.1 : ℚ) / top_actions.length)

/-- Modelled from the spec: section 4.2 `enforce_minimum_probability`
(declared at `explore.h` lines 62-63; body absent from the source tree).
With `f = minimum_uniform / N` the per-action floor, every eligible entry
(non-zero, or zero when `update_zero_elements` is true) at or below the
floor is raised to exactly the floor, and every entry exceeding the floor
is scaled by the common factor `(1 - floor * touched) / exceeding_mass`,
which restores a total of 1.  Fails `BAD_RANGE` when `minimum_uniform` is
outside [0,1] or the buffer is empty. -/
def enforce_minimum_probability (minimum_uniform : ℚ)
    (update_zero_elements : Bool) (pmf : List ℚ) : Nat × List ℚ :=
  if minimum_uniform < 0 ∨ 1 < minimum_uniform ∨ pmf.length = 0 then
    (E_EXPLORATION_BAD_RANGE, pmf)
  else
    let f := minimum_uniform / pmf.length
    let touched :=
      (pmf.filter fun p =>
        (p ≠ 0 ∨ update_zero_elements = true) ∧ p ≤ f).length
    let exceeding := (pmf.filter fun p => f < p).sum
    let scale := (1 - f * touched) / exceeding
    (S_EXPLORATION_OK,
      pmf.map fun p =>
        if (p ≠ 0 ∨ update_zero_elements = true) ∧ p ≤ f then f
        else if f < p then p * scale
        else p)

/-- Modelled from the spec: section 4.4, the inverse-CDF walk shared by the
discrete samplers: the chosen index is the first one where the running sum
of the pmf reaches the uniform draw `u`, and any residual mass left when
the walk falls off the end goes to the last action. -/
def sample_core (u : ℚ) : List ℚ → Nat
  | [] => 0
  | [_] => 0
  | p :: q :: rest => if u ≤ p then 0 else sample_core (u - p) (q :: rest) + 1

/-- Modelled from the spec: section 4.4 `sample_after_normalizing` with the
integer seed (declared at `explore.h` lines 75-76; body absent from the
source tree).  Fails `BAD_RANGE` on an empty pmf; otherwise rescales the
buffer in place to sum to 1 and walks it with the uniform draw for the
seed.  The result is the status, the buffer contents after the call, and
the chosen index. -/
def sample_after_normalizing (seed : Nat) (pmf : List ℚ) :
    Nat × List ℚ × Nat :=
  if pmf.length = 0 then (E_EXPLORATION_BAD_RANGE, pmf, 0)
  else
    let t := pmf.sum
    let norm := pmf.map fun p => p / t
    (S_EXPLORATION_OK, norm, sample_core (uniform01 seed) norm)

/-- Modelled from the spec: section 4.4 `sample_without_normalizing` with
the integer seed (declared at `explore.h` lines 101-102; body absent from
the source tree).  Identical to `sample_after_normalizing` except that the
normalization pass is skipped, so the buffer is returned untouched. -/
def sample_without_normalizing (seed : Nat) (pmf : List ℚ) :
    Nat × List ℚ × Nat :=
  if pmf.length = 0 then (E_EXPLORATION_BAD_RANGE, pmf, 0)
  else (S_EXPLORATION_OK, pmf, sample_core (uniform01 seed) pmf)

/-- Modelled from the spec: the byte-string seed overload of
`sample_after_normalizing` (declared at `explore.h` line 89) hashes the
seed per section 4.3 and then behaves like the integer-seed form. -/
def sample_after_normalizing_bytes (seed : List Nat) (pmf : List ℚ) :
    Nat × List ℚ × Nat :=
  sample_after_normalizing (hash_bytes seed) pmf

/-- Modelled from the spec: the byte-string seed overload of
`sample_without_normalizing` (declared at `explore.h` line 115). -/
def sample_without_normalizing_bytes (seed : List Nat) (pmf : List ℚ) :
    Nat × List ℚ × Nat :=
  sample_without_normalizing (hash_bytes seed) pmf

/-- Modelled from the spec: section 4.5 `sample_pdf` with the integer seed
(declared at `explore.h` lines 128-129; body absent from the source tree).
Requires a non-empty pdf and `range_min < range_max` (else `BAD_RANGE`);
normalizes the pdf, picks a bucket by the cumulative walk on the first
draw, then interpolates inside that bucket with a second draw. -/
def sample_pdf (seed : Nat) (pdf : List ℚ) (range_min range_max : ℚ) :
    Nat × ℚ :=
  if pdf.length = 0 ∨ range_max ≤ range_min then (E_EXPLORATION_BAD_RANGE, 0)
  else
    let t := pdf.sum
    let norm := pdf.map fun p => p / t
    let k := sample_core (uniform_draw seed 0) norm
    let width := (range_max - range_min) / pdf.length
    (S_EXPLORATION_OK, range_min + ((k : ℚ) + uniform_draw seed 1) * width)

/-- Modelled from the spec: the byte-string seed overload of `sample_pdf`
(declared at `explore.h` lines 142-143). -/
def sample_pdf_bytes (seed : List Nat) (pdf : List ℚ)
    (range_min range_max : ℚ) : Nat × ℚ :=
  sample_pdf (hash_bytes seed) pdf range_min range_max

/-- Modelled from the spec: section 4.6 `swap_chosen` (declared at
`explore.h` lines 154-155; body absent from the source tree).  Exchanges
the element at position 0 with the element at `chosen_index`; fails
`BAD_RANGE`, leaving the sequence unmodified, when `chosen_index` is
outside the sequence bounds. -/
def swap_chosen {α : Type} (actions : List α) (chosen_index : Nat) :
    Nat × List α :=
  if h : chosen_index < actions.length then
    (S_EXPLORATION_OK,
      (actions.set 0 (actions.get ⟨chosen_index, h⟩)).set chosen_index
        (actions.get ⟨0, Nat.lt_of_le_of_lt (Nat.zero_le _) h⟩))
  else (E_EXPLORATION_BAD_RANGE, actions)

/-! ### Helper lemmas -/

lemma sum_map_div (l : List ℚ) (c : ℚ) :
    (l.map fun x => x / c).sum = l.sum / c := by
  induction l with
  | nil => simp
  | cons p rest ih => simp [ih, add_div]

lemma sample_core_lt_length (u : ℚ) (l : List ℚ) (h : l ≠ []) :
    sample_core u l < l.length := by
  induction l generalizing u with
  | nil => exact absurd rfl h
  | cons p rest ih =>
    cases rest with
    | nil => simp [sample_core]
    | cons q r =>
      simp only [sample_core]
      split
      · simp
      · have := ih (u := u - p) (by simp)
        simpa [Nat.succ_lt_succ_iff] using this

lemma sample_core_residual (u : ℚ) (l : List ℚ) (hne : l ≠ [])
    (hnn : ∀ p ∈ l, 0 ≤ p) (hlt : l.sum < u) :
    sample_core u l = l.length - 1 := by
  induction l generalizing u with
  | nil => exact absurd rfl hne
  | cons p rest ih =>
    cases rest with
    | nil => simp [sample_core]
    | cons q r =>
      have hrest : (0:ℚ) ≤ (q :: r).sum := by
        apply List.sum_nonneg
        intro x hx
        exact hnn x (List.mem_cons_of_mem p hx)
      have hs : (p :: q :: r).sum = p + (q :: r).sum := List.sum_cons
      rw [hs] at hlt
      have hpu : ¬ u ≤ p := by intro hle; linarith
      have hsum : (q :: r).sum < u - p := by linarith
      simp only [sample_core, if_neg hpu]
      rw [ih (u := u - p) (by simp)
        (fun x hx => hnn x (List.mem_cons_of_mem p hx)) hsum]
      simp

/-! ### Claim theorems -/

/-- C1: each sampler is a pure function of its seed and distribution, so two
calls with the same seed (integer or byte-string form) and the same pmf or
pdf contents return the same chosen index or value in every run; moreover
the byte-string overloads route through the same logic after hashing the
seed, so determinism of the integer form carries over. -/
theorem samplers_deterministic :
    ∀ (seed : Nat) (bytes : List Nat) (pmf pdf : List ℚ) (lo hi : ℚ),
      sample_after_normalizing seed pmf = sample_after_normalizing seed pmf ∧
      sample_without_normalizing seed pmf =
        sample_without_normalizing seed pmf ∧
      sample_pdf seed pdf lo hi = sample_pdf seed pdf lo hi ∧
      sample_after_normalizing_bytes bytes pmf =
        sample_after_normalizing (hash_bytes bytes) pmf ∧
      sample_without_normalizing_bytes bytes pmf =
        sample_without_normalizing (hash_bytes bytes) pmf ∧
      sample_pdf_bytes bytes pdf lo hi =
        sample_pdf (hash_bytes bytes) pdf lo hi :=
  fun _ _ _ _ _ _ => ⟨rfl, rfl, rfl, rfl, rfl, rfl⟩

/-- C9: `sample_without_normalizing` never rescales the pmf: for every seed
(in either form) and every input buffer, the buffer contents returned by
the call equal the input contents; only the status and chosen index are
produced. -/
theorem sample_without_normalizing_frame :
    ∀ (seed : Nat) (bytes : List Nat) (pmf : List ℚ),
      (sample_without_normalizing seed pmf).2.1 = pmf ∧
      (sample_without_normalizing_bytes bytes pmf).2.1 = pmf := by
  intro seed bytes pmf
  constructor <;>
    · simp only [sample_without_normalizing_bytes, sample_without_normalizing]
      split <;> rfl

/-- C6: whenever the scores and the pmf buffer passed to `generate_softmax`
have different lengths, the call fails with the size-mismatch status, which
is distinct from `BAD_RANGE`, and the buffer is left exactly as it was, so
nothing is truncated or padded. -/
theorem generate_softmax_size_mismatch :
    ∀ (expf : ℚ → ℚ) (lambda : ℚ) (scores pmf : List ℚ),
      scores.length ≠ pmf.length →
      (generate_softmax expf lambda scores pmf).1 =
          E_EXPLORATION_PDF_RANKING_SIZE_MISMATCH ∧
      (generate_softmax expf lambda scores pmf).1 ≠
          E_EXPLORATION_BAD_RANGE ∧
      (generate_softmax expf lambda scores pmf).2 = pmf := by
  intro expf lambda scores pmf h
  simp [generate_softmax, h, E_EXPLORATION_PDF_RANKING_SIZE_MISMATCH,
    E_EXPLORATION_BAD_RANGE]

/-- Witness for C6 at 3 scores against a 4-slot buffer. -/
theorem generate_softmax_size_mismatch_witness :
    (generate_softmax (fun q => q) 0 [1, 2, 3] [0, 0, 0, 0]).1 =
        E_EXPLORATION_PDF_RANKING_SIZE_MISMATCH ∧
    (generate_softmax (fun q => q) 0 [1, 2, 3] [0, 0, 0, 0]).1 ≠
        E_EXPLORATION_BAD_RANGE ∧
    (generate_softmax (fun q => q) 0 [1, 2, 3] [0, 0, 0, 0]).2 =
        [0, 0, 0, 0] :=
  generate_softmax_size_mismatch (fun q => q) 0 [1, 2, 3] [0, 0, 0, 0]
    (by decide)

lemma set_getElem_eq {α : Type} (l : List α) (n : Nat) (h : n < l.length) :
    l.set n l[n] = l := by
  apply List.ext_getElem
  · simp
  · intro i h1 h2
    by_cases hi : n = i
    · subst hi; simp
    · rw [List.getElem_set_ne hi]

/-- C10: `swap_chosen` exchanges the element at position 0 with the one at
`chosen_index` and leaves every other element in place; in particular
[A,B,C,D] with index 2 becomes [C,B,A,D]; index 0 leaves the sequence
unchanged; and an out-of-bounds index fails `BAD_RANGE` with the sequence
unmodified. -/
theorem swap_chosen_spec :
    (∀ (l : List Nat) (c : Nat) (d : Nat) (h : c < l.length),
        (swap_chosen l c).1 = S_EXPLORATION_OK ∧
        (swap_chosen l c).2.length = l.length ∧
        (swap_chosen l c).2.getD 0 d = l.getD c d ∧
        (swap_chosen l c).2.getD c d = l.getD 0 d ∧
        (∀ i, i ≠ 0 → i ≠ c → (swap_chosen l c).2.getD i d = l.getD i d)) ∧
    (∀ l : List Nat, (swap_chosen l 0).2 = l) ∧
    (∀ (l : List Nat) (c : Nat), l.length ≤ c →
        swap_chosen l c = (E_EXPLORATION_BAD_RANGE, l)) ∧
    (∀ A B C D : Nat,
        swap_chosen [A, B, C, D] 2 = (S_EXPLORATION_OK, [C, B, A, D])) := by
  refine ⟨?_, ?_, ?_, ?_⟩
  · intro l c d h
    have h0 : 0 < l.length := Nat.lt_of_le_of_lt (Nat.zero_le _) h
    simp only [swap_chosen, dif_pos h, List.get_eq_getElem]
    refine ⟨trivial, by simp, ?_, ?_, ?_⟩
    · by_cases hc : c = 0
      · subst hc
        rw [List.getD_eq_getElem _ _ (by simpa using h0),
          List.getD_eq_getElem _ _ h0]
        simp
      · rw [List.getD_eq_getElem _ _ (by simpa using h0),
          List.getD_eq_getElem _ _ h]
        rw [List.getElem_set_ne (by omega), List.getElem_set_self]
    · rw [List.getD_eq_getElem _ _ (by simpa using h),
        List.getD_eq_getElem _ _ h0]
      simp
    · intro i hi0 hic
      by_cases hil : i < l.length
      · rw [List.getD_eq_getElem _ _ (by simpa using hil),
          List.getD_eq_getElem _ _ hil]
        rw [List.getElem_set_ne (by omega), List.getElem_set_ne (by omega)]
      · rw [List.getD_eq_default _ _ (by simpa using hil),
          List.getD_eq_default _ _ (by omega)]
  · intro l
    cases l with
    | nil => rfl
    | cons x xs =>
      simp only [swap_chosen, dif_pos (by simp : 0 < (x :: xs).length)]
      rw [List.set_set]
      exact set_getElem_eq _ _ (by simp)
  · intro l c h
    simp [swap_chosen, Nat.not_lt.mpr h]
  · intro A B C D
    simp [swap_chosen, S_EXPLORATION_OK]

/-- Witness for C10 on the concrete sequence [10, 20, 30, 40]. -/
theorem swap_chosen_spec_witness :
    (swap_chosen [10, 20, 30, 40] 2).1 = S_EXPLORATION_OK ∧
    (swap_chosen [10, 20, 30, 40] 2).2.getD 0 0 = 30 := by
  have h := swap_chosen_spec
  obtain ⟨h1, -, -, -⟩ := h
  obtain ⟨hs, -, hd, -, -⟩ := h1 [10, 20, 30, 40] 2 0 (by decide)
  exact ⟨hs, by simpa using hd⟩

/-- C2: for epsilon in [0,1], a non-empty buffer and a valid top action,
`generate_epsilon_greedy` succeeds, its output sums to exactly 1 (hence
within the 1e-6 tolerance), every entry is at least epsilon/N, and the
entry at `top_action` equals epsilon/N + (1 - epsilon). -/
theorem generate_epsilon_greedy_spec :
    ∀ (epsilon : ℚ) (top_action : Nat) (pmf : List ℚ),
      0 ≤ epsilon → epsilon ≤ 1 → top_action < pmf.length →
      (generate_epsilon_greedy epsilon top_action pmf).1 = S_EXPLORATION_OK ∧
      (generate_epsilon_greedy epsilon top_action pmf).2.length =
        pmf.length ∧
      (generate_epsilon_greedy epsilon top_action pmf).2.sum = 1 ∧
      |(generate_epsilon_greedy epsilon top_action pmf).2.sum - 1| ≤
        1 / 1000000 ∧
      (∀ i, i < pmf.length →
        epsilon / pmf.length ≤
          (generate_epsilon_greedy epsilon top_action pmf).2.getD i 0) ∧
      (generate_epsilon_greedy epsilon top_action pmf).2.getD top_action 0 =
        epsilon / pmf.length + (1 - epsilon) := by
  intro epsilon top_action pmf h0 h1 htop
  have hN : 0 < pmf.length := Nat.lt_of_le_of_lt (Nat.zero_le _) htop
  have hguard :
      ¬ (epsilon < 0 ∨ 1 < epsilon ∨ pmf.length = 0 ∨
          pmf.length ≤ top_action) := by
    push_neg
    exact ⟨h0, h1, by omega, htop⟩
  have hNQ : (pmf.length : ℚ) ≠ 0 := by positivity
  simp only [generate_epsilon_greedy, if_neg hguard]
  have hsum :
      (List.ofFn (n := pmf.length) fun i =>
          epsilon / pmf.length +
            if i.1 = top_action then 1 - epsilon else 0).sum = 1 := by
    rw [List.sum_ofFn, Finset.sum_add_distrib, Finset.sum_const,
      Finset.card_univ, Fintype.card_fin]
    have hite :
        (∑ i : Fin pmf.length,
            if i.1 = top_action then 1 - epsilon else 0) = 1 - epsilon := by
      have hrw : ∀ i : Fin pmf.length,
          (if i.1 = top_action then 1 - epsilon else (0:ℚ)) =
            if i = ⟨top_action, htop⟩ then 1 - epsilon else 0 := by
        intro i
        congr 1
        simp [Fin.ext_iff]
      rw [Finset.sum_congr rfl fun i _ => hrw i]
      rw [Finset.sum_ite_eq' Finset.univ (⟨top_action, htop⟩ : Fin pmf.length)
        fun _ => 1 - epsilon]
      simp
    rw [hite, nsmul_eq_mul]
    field_simp
  refine ⟨trivial, by simp, hsum, by rw [hsum]; norm_num, ?_, ?_⟩
  · intro i hi
    rw [List.getD_eq_getElem _ _ (by simpa using hi)]
    rw [List.getElem_ofFn]
    have : (0:ℚ) ≤ if i = top_action then 1 - epsilon else 0 := by
      split <;> linarith
    linarith
  · rw [List.getD_eq_getElem _ _ (by simpa using htop)]
    rw [List.getElem_ofFn]
    simp

/-- Witness for C2 at epsilon = 1/2, top action 1, buffer of length 2. -/
theorem generate_epsilon_greedy_spec_witness :
    (generate_epsilon_greedy (1/2) 1 [0, 0]).1 = S_EXPLORATION_OK ∧
    (generate_epsilon_greedy (1/2) 1 [0, 0]).2.sum = 1 ∧
    (generate_epsilon_greedy (1/2) 1 [0, 0]).2.getD 1 0 =
      (1/2) / 2 + (1 - 1/2) := by
  obtain ⟨hs, -, hsum, -, -, htop⟩ :=
    generate_epsilon_greedy_spec (1/2) 1 [0, 0] (by norm_num) (by norm_num)
      (by decide)
  exact ⟨hs, hsum, by simpa using htop⟩

/-- C8: a successful discrete sampler call on a non-empty pmf always
returns an index strictly below the pmf length, and when the running
cumulative sum never reaches the draw `u` (residual floating-point mass),
the walk chooses the last index rather than running out of range. -/
theorem sampler_index_in_range :
    (∀ (seed : Nat) (pmf : List ℚ), pmf ≠ [] →
      (sample_without_normalizing seed pmf).1 = S_EXPLORATION_OK ∧
      (sample_without_normalizing seed pmf).2.2 < pmf.length) ∧
    (∀ (seed : Nat) (pmf : List ℚ), pmf ≠ [] →
      (sample_after_normalizing seed pmf).1 = S_EXPLORATION_OK ∧
      (sample_after_normalizing seed pmf).2.2 < pmf.length) ∧
    (∀ (u : ℚ) (pmf : List ℚ), pmf ≠ [] → (∀ p ∈ pmf, 0 ≤ p) →
      pmf.sum < u → sample_core u pmf = pmf.length - 1) := by
  refine ⟨?_, ?_, sample_core_residual⟩
  · intro seed pmf h
    have hlen : pmf.length ≠ 0 := by simpa using h
    simp only [sample_without_normalizing, if_neg hlen]
    exact ⟨trivial, sample_core_lt_length _ _ h⟩
  · intro seed pmf h
    have hlen : pmf.length ≠ 0 := by simpa using h
    simp only [sample_after_normalizing, if_neg hlen]
    refine ⟨trivial, ?_⟩
    have hmap : (pmf.map fun p => p / pmf.sum) ≠ [] := by
      simpa using h
    have := sample_core_lt_length (uniform01 seed)
      (pmf.map fun p => p / pmf.sum) hmap
    simpa using this

/-- Witness for C8 on the pmf [1/2, 1/2] with seed 7, and on the residual
case u = 2 over [1/2, 1/2]. -/
theorem sampler_index_in_range_witness :
    ((sample_without_normalizing 7 [1/2, 1/2]).2.2 < 2) ∧
    ((sample_after_normalizing 7 [1/2, 1/2]).2.2 < 2) ∧
    sample_core 2 [1/2, 1/2] = 1 := by
  obtain ⟨h1, h2, h3⟩ := sampler_index_in_range
  refine ⟨?_, ?_, ?_⟩
  · simpa using (h1 7 [1/2, 1/2] (by simp)).2
  · simpa using (h2 7 [1/2, 1/2] (by simp)).2
  · simpa using h3 2 [1/2, 1/2] (by simp) (by norm_num) (by norm_num)

lemma count_sum_eq_length (N : Nat) :
    ∀ votes : List Nat, (∀ a ∈ votes, a < N) →
      (∑ i : Fin N, votes.count i.1) = votes.length := by
  intro votes
  induction votes with
  | nil => simp
  | cons v vs ih =>
    intro h
    have hv : v < N := h v (List.mem_cons_self v vs)
    have hvs : ∀ a ∈ vs, a < N := fun a ha => h a (List.mem_cons_of_mem v ha)
    have hcount : ∀ i : Fin N,
        (v :: vs).count i.1 = vs.count i.1 + if v = i.1 then 1 else 0 := by
      intro i
      rw [List.count_cons]
      simp
    rw [Finset.sum_congr rfl fun i _ => hcount i, Finset.sum_add_distrib,
      ih hvs]
    have : (∑ i : Fin N, if v = i.1 then 1 else 0) = 1 := by
      have hrw : ∀ i : Fin N,
          (if v = i.1 then 1 else 0) = if i = ⟨v, hv⟩ then 1 else 0 := by
        intro i
        congr 1
        simp [Fin.ext_iff, eq_comm]
      rw [Finset.sum_congr rfl fun i _ => hrw i,
        Finset.sum_ite_eq' Finset.univ (⟨v, hv⟩ : Fin N) fun _ => 1]
      simp
    rw [this]
    simp

/-- C7: with a non-empty vote list whose entries are valid indices into a
non-empty buffer, `generate_bag` succeeds, each slot holds its vote count
divided by the total number of votes, and the output sums to exactly 1
(hence within the 1e-6 tolerance); an empty vote list or an empty buffer
fails `BAD_RANGE`. -/
theorem generate_bag_spec :
    (∀ (top_actions : List Nat) (pmf : List ℚ),
      top_actions ≠ [] → pmf ≠ [] →
      (∀ a ∈ top_actions, a < pmf.length) →
      (generate_bag top_actions pmf).1 = S_EXPLORATION_OK ∧
      (generate_bag top_actions pmf).2.length = pmf.length ∧
      (∀ i, i < pmf.length →
        (generate_bag top_actions pmf).2.getD i 0 =
          (top_actions.count i : ℚ) / top_actions.length) ∧
      (generate_bag top_actions pmf).2.sum = 1) ∧
    (∀ (top_actions : List Nat) (pmf : List ℚ),
      top_actions = [] ∨ pmf = [] →
      generate_bag top_actions pmf = (E_EXPLORATION_BAD_RANGE, pmf)) := by
  constructor
  · intro top_actions pmf hta hpmf hvalid
    have hguard : ¬ (top_actions.length = 0 ∨ pmf.length = 0 ∨
        ¬ (∀ a ∈ top_actions, a < pmf.length)) := by
      push_neg
      exact ⟨by simpa using hta, by simpa using hpmf, hvalid⟩
    simp only [generate_bag, if_neg hguard]
    have hL : (top_actions.length : ℚ) ≠ 0 := by
      simpa using hta
    refine ⟨trivial, by simp, ?_, ?_⟩
    · intro i hi
      rw [List.getD_eq_getElem _ _ (by simpa using hi)]
      rw [List.getElem_ofFn]
    · rw [List.sum_ofFn]
      have : (∑ i : Fin pmf.length,
          ((top_actions.count i.1 : ℚ) / top_actions.length)) =
          (∑ i : Fin pmf.length, (top_actions.count i.1 : ℚ)) /
            top_actions.length := by
        rw [Finset.sum_div]
      rw [this]
      have hcast : (∑ i : Fin pmf.length, (top_actions.count i.1 : ℚ)) =
          ((∑ i : Fin pmf.length, top_actions.count i.1 : Nat) : ℚ) := by
        push_cast
        rfl
      rw [hcast, count_sum_eq_length pmf.length top_actions hvalid]
      field_simp
  · intro top_actions pmf h
    have : (top_actions.length = 0 ∨ pmf.length = 0 ∨
        ¬ (∀ a ∈ top_actions, a < pmf.length)) := by
      rcases h with h | h <;> simp [h]
    simp only [generate_bag, if_pos this]

/-- Witness for C7 at votes [1, 1, 0] over a 2-slot buffer. -/
theorem generate_bag_spec_witness :
    (generate_bag [1, 1, 0] [0, 0]).1 = S_EXPLORATION_OK ∧
    (generate_bag [1, 1, 0] [0, 0]).2.getD 1 0 = 2 / 3 ∧
    (generate_bag [1, 1, 0] [0, 0]).2.sum = 1 := by
  obtain ⟨h1, -⟩ := generate_bag_spec
  obtain ⟨hs, -, hpt, hsum⟩ :=
    h1 [1, 1, 0] [0, 0] (by simp) (by simp) (by decide)
  refine ⟨hs, ?_, hsum⟩
  have := hpt 1 (by decide)
  simpa using this

/-- C4: with a positive monotone exponential, lambda at least 0 and
matching non-empty inputs, `generate_softmax` succeeds, each slot is the
exponential weight of its shifted score normalized by the weight sum (so
it is proportional to it), the output sums to exactly 1 (hence within the
1e-6 tolerance), is entrywise non-negative, and a higher score never gets
a smaller probability; and whenever the weight sum is zero the output is
the uniform distribution instead of an undefined value. -/
theorem generate_softmax_spec :
    (∀ expf : ℚ → ℚ, (∀ x, 0 < expf x) → Monotone expf →
      ∀ lambda : ℚ, 0 ≤ lambda →
      ∀ scores pmf : List ℚ, scores.length = pmf.length → scores ≠ [] →
        (generate_softmax expf lambda scores pmf).1 = S_EXPLORATION_OK ∧
        (generate_softmax expf lambda scores pmf).2.length = scores.length ∧
        (generate_softmax expf lambda scores pmf).2.sum = 1 ∧
        |(generate_softmax expf lambda scores pmf).2.sum - 1| ≤
          1 / 1000000 ∧
        (∀ i, i < scores.length →
          (generate_softmax expf lambda scores pmf).2.getD i 0 =
            expf (lambda *
                (scores.getD i 0 - scores.foldl max scores.headI)) /
              (scores.map fun s =>
                expf (lambda * (s - scores.foldl max scores.headI))).sum) ∧
        (∀ i, i < scores.length →
          0 ≤ (generate_softmax expf lambda scores pmf).2.getD i 0) ∧
        (∀ i j, i < scores.length → j < scores.length →
          scores.getD j 0 ≤ scores.getD i 0 →
          (generate_softmax expf lambda scores pmf).2.getD j 0 ≤
            (generate_softmax expf lambda scores pmf).2.getD i 0)) ∧
    (∀ (expf : ℚ → ℚ) (lambda : ℚ) (scores pmf : List ℚ),
      scores.length = pmf.length → scores ≠ [] →
      (scores.map fun s =>
        expf (lambda * (s - scores.foldl max scores.headI))).sum = 0 →
      generate_softmax expf lambda scores pmf =
        (S_EXPLORATION_OK,
          List.replicate scores.length ((scores.length : ℚ)⁻¹))) := by
  constructor
  · intro expf hpos hmono lambda hlam scores pmf hlen hne
    have hlenne : ¬ scores.length ≠ pmf.length := not_not.mpr hlen
    have hlen0 : ¬ scores.length = 0 := by simpa using hne
    have hwne :
        (scores.map fun s =>
          expf (lambda * (s - scores.foldl max scores.headI))) ≠ [] := by
      simpa using hne
    have hwpos : ∀ x ∈ (scores.map fun s =>
        expf (lambda * (s - scores.foldl max scores.headI))), 0 < x := by
      intro x hx
      obtain ⟨s, -, rfl⟩ := List.mem_map.mp hx
      exact hpos _
    have ht : 0 < (scores.map fun s =>
        expf (lambda * (s - scores.foldl max scores.headI))).sum :=
      List.sum_pos _ hwpos hwne
    have hgs : generate_softmax expf lambda scores pmf =
        (S_EXPLORATION_OK,
          (scores.map fun s =>
            expf (lambda * (s - scores.foldl max scores.headI))).map
            fun x => x /
              (scores.map fun s =>
                expf (lambda * (s - scores.foldl max scores.headI))).sum) := by
      simp only [generate_softmax, if_neg hlenne, if_neg hlen0,
        if_neg ht.ne']
    rw [hgs]
    have hpoint : ∀ i, i < scores.length →
        ((scores.map fun s =>
            expf (lambda * (s - scores.foldl max scores.headI))).map
          fun x => x /
            (scores.map fun s =>
              expf (lambda * (s - scores.foldl max scores.headI))).sum).getD
            i 0 =
          expf (lambda * (scores.getD i 0 - scores.foldl max scores.headI)) /
            (scores.map fun s =>
              expf (lambda * (s - scores.foldl max scores.headI))).sum := by
      intro i hi
      rw [List.getD_eq_getElem _ _ (by simpa using hi)]
      rw [List.getElem_map, List.getElem_map,
        List.getD_eq_getElem _ _ (by simpa using hi)]
    refine ⟨rfl, by simp, ?_, ?_, hpoint, ?_, ?_⟩
    · rw [sum_map_div, div_self ht.ne']
    · rw [sum_map_div, div_self ht.ne']
      norm_num
    · intro i hi
      rw [hpoint i hi]
      have := hpos (lambda * (scores.getD i 0 - scores.foldl max scores.headI))
      positivity
    · intro i j hi hj hscore
      rw [hpoint i hi, hpoint j hj]
      rw [div_le_div_iff_of_pos_right ht]
      exact hmono (by nlinarith [hscore])
  · intro expf lambda scores pmf hlen hne ht0
    have hlenne : ¬ scores.length ≠ pmf.length := not_not.mpr hlen
    have hlen0 : ¬ scores.length = 0 := by simpa using hne
    simp only [generate_softmax, if_neg hlenne, if_neg hlen0, if_pos ht0]

/-- Witness for C4 with the positive monotone weight function
fun x => 1 + max x 0, lambda = 1, scores [0, 1] and a 2-slot buffer. -/
theorem generate_softmax_spec_witness :
    (generate_softmax (fun x => 1 + max x 0) 1 [0, 1] [0, 0]).1 =
        S_EXPLORATION_OK ∧
    (generate_softmax (fun x => 1 + max x 0) 1 [0, 1] [0, 0]).2.sum = 1 ∧
    (generate_softmax (fun x => 1 + max x 0) 1 [0, 1] [0, 0]).2.getD 0 0 ≤
      (generate_softmax (fun x => 1 + max x 0) 1 [0, 1] [0, 0]).2.getD 1 0 := by
  have hpos : ∀ x : ℚ, 0 < 1 + max x 0 := by
    intro x
    have := le_max_right x 0
    linarith
  have hmono : Monotone fun x : ℚ => 1 + max x 0 := by
    intro a b hab
    simp only
    exact add_le_add_left (max_le_max hab le_rfl) 1
  obtain ⟨hs, -, hsum, -, -, -, hmon⟩ :=
    generate_softmax_spec.1 (fun x => 1 + max x 0) hpos hmono 1
      (by norm_num) [0, 1] [0, 0] (by simp) (by simp)
  exact ⟨hs, hsum, hmon 1 0 (by decide) (by decide) (by norm_num)⟩

lemma enforce_map_sum (f r : ℚ) (uz : Bool) (l : List ℚ) :
    (l.map fun p =>
      if (p ≠ 0 ∨ uz = true) ∧ p ≤ f then f
      else if f < p then p * r else p).sum =
    f * (l.filter fun p => (p ≠ 0 ∨ uz = true) ∧ p ≤ f).length +
      (l.filter fun p => f < p).sum * r := by
  induction l with
  | nil => simp
  | cons p rest ih =>
    rw [List.map_cons, List.sum_cons, List.filter_cons, List.filter_cons, ih]
    by_cases h1 : (p ≠ 0 ∨ uz = true) ∧ p ≤ f
    · have h2 : ¬ f < p := not_lt.mpr h1.2
      rw [if_pos h1, if_pos (decide_eq_true h1), if_neg (by simpa using h2),
        List.length_cons]
      push_cast
      ring
    · by_cases h2 : f < p
      · rw [if_neg h1, if_pos h2, if_neg (by simpa using h1),
          if_pos (decide_eq_true h2), List.sum_cons]
        ring
      · have hp0 : p = 0 := by
          rcases not_and_or.mp h1 with h | h
          · exact not_not.mp (not_or.mp h).1
          · exact absurd (lt_of_not_le h) h2
        rw [if_neg h1, if_neg h2, if_neg (by simpa using h1),
          if_neg (by simpa using h2), hp0]
        ring

lemma sum_filter_decompose (f : ℚ) (uz : Bool) (l : List ℚ) :
    l.sum = (l.filter fun p => (p ≠ 0 ∨ uz = true) ∧ p ≤ f).sum +
      (l.filter fun p => f < p).sum := by
  induction l with
  | nil => simp
  | cons p rest ih =>
    rw [List.sum_cons, List.filter_cons, List.filter_cons, ih]
    by_cases h1 : (p ≠ 0 ∨ uz = true) ∧ p ≤ f
    · have h2 : ¬ f < p := not_lt.mpr h1.2
      rw [if_pos (decide_eq_true h1), if_neg (by simpa using h2),
        List.sum_cons]
      ring
    · by_cases h2 : f < p
      · rw [if_neg (by simpa using h1), if_pos (decide_eq_true h2),
          List.sum_cons]
        ring
      · have hp0 : p = 0 := by
          rcases not_and_or.mp h1 with h | h
          · exact not_not.mp (not_or.mp h).1
          · exact absurd (lt_of_not_le h) h2
        rw [if_neg (by simpa using h1), if_neg (by simpa using h2), hp0]
        ring

lemma enforce_sum_eq_one (m : ℚ) (uz : Bool) (pmf : List ℚ)
    (h0 : 0 ≤ m) (h1 : m ≤ 1) (hne : pmf ≠ [])
    (hnn : ∀ p ∈ pmf, 0 ≤ p) (hsum : pmf.sum = 1) :
    m / pmf.length *
        (pmf.filter fun p =>
          (p ≠ 0 ∨ uz = true) ∧ p ≤ m / pmf.length).length +
      (pmf.filter fun p => m / pmf.length < p).sum *
        ((1 - m / pmf.length *
            (pmf.filter fun p =>
              (p ≠ 0 ∨ uz = true) ∧ p ≤ m / pmf.length).length) /
          (pmf.filter fun p => m / pmf.length < p).sum) = 1 := by
  have hN : 0 < pmf.length := List.length_pos.mpr hne
  have hNQ : (0:ℚ) < pmf.length := by exact_mod_cast hN
  have hf0 : 0 ≤ m / pmf.length := div_nonneg h0 hNQ.le
  by_cases hU : (pmf.filter fun p => m / pmf.length < p).sum = 0
  · have hfilter : (pmf.filter fun p => m / pmf.length < p) = [] := by
      by_contra hnil
      have hpos : ∀ x ∈ (pmf.filter fun p => m / pmf.length < p), 0 < x := by
        intro x hx
        have hx2 := (List.mem_filter.mp hx).2
        have : m / pmf.length < x := by simpa using hx2
        linarith
      exact absurd hU (List.sum_pos _ hpos hnil).ne'
    have hdec := sum_filter_decompose (m / pmf.length) uz pmf
    rw [hsum, hfilter] at hdec
    simp only [List.sum_nil, add_zero] at hdec
    have hle : (pmf.filter fun p =>
        (p ≠ 0 ∨ uz = true) ∧ p ≤ m / pmf.length).sum ≤
        (pmf.filter fun p =>
          (p ≠ 0 ∨ uz = true) ∧ p ≤ m / pmf.length).length •
          (m / pmf.length) := by
      apply List.sum_le_card_nsmul
      intro x hx
      have hx2 := (List.mem_filter.mp hx).2
      have : (x ≠ 0 ∨ uz = true) ∧ x ≤ m / pmf.length := by simpa using hx2
      exact this.2
    rw [nsmul_eq_mul] at hle
    have hklen : ((pmf.filter fun p =>
        (p ≠ 0 ∨ uz = true) ∧ p ≤ m / pmf.length).length : ℚ) ≤
        (pmf.length : ℚ) := by
      exact_mod_cast List.length_filter_le _ _
    have hup : m / pmf.length * (pmf.filter fun p =>
        (p ≠ 0 ∨ uz = true) ∧ p ≤ m / pmf.length).length ≤ m := by
      have := mul_le_mul_of_nonneg_left hklen hf0
      calc m / pmf.length * (pmf.filter fun p =>
            (p ≠ 0 ∨ uz = true) ∧ p ≤ m / pmf.length).length
          ≤ m / pmf.length * pmf.length := this
        _ = m := by field_simp
    have hdown : (1:ℚ) ≤ m / pmf.length * (pmf.filter fun p =>
        (p ≠ 0 ∨ uz = true) ∧ p ≤ m / pmf.length).length := by
      rw [hdec]
      calc (pmf.filter fun p =>
            (p ≠ 0 ∨ uz = true) ∧ p ≤ m / pmf.length).sum
          ≤ _ * (m / pmf.length) := hle
        _ = m / pmf.length * _ := by ring
    rw [hU]
    have : m / pmf.length * ((pmf.filter fun p =>
        (p ≠ 0 ∨ uz = true) ∧ p ≤ m / pmf.length).length : ℚ) = 1 := by
      linarith
    linarith [this]
  · rw [mul_comm ((pmf.filter fun p => m / pmf.length < p).sum),
      div_mul_cancel₀ _ hU]
    ring

/-- C3 counterexample: for minimum_uniform = 1 over the conforming pmf
[3/10, 17/50, 9/25] (non-negative, sums to 1), the pass succeeds but the
originally non-zero second entry ends at 34/105, strictly below the floor
1/3 by 1/105, far beyond the 1e-6 tolerance: the proportional shrink can
push an entry that exceeded the floor below it. -/
theorem enforce_minimum_probability_floor_cex :
    (enforce_minimum_probability 1 false [3/10, 17/50, 9/25]).1 =
        S_EXPLORATION_OK ∧
    ((0:ℚ) ≤ 3/10 ∧ (0:ℚ) ≤ 17/50 ∧ (0:ℚ) ≤ 9/25) ∧
    ((3:ℚ)/10 + 17/50 + 9/25 = 1) ∧
    ((17:ℚ)/50 ≠ 0) ∧
    (enforce_minimum_probability 1 false [3/10, 17/50, 9/25]).2.getD 1 0 <
      (1:ℚ)/3 - 1/1000000 := by
  refine ⟨rfl, by norm_num, by norm_num, by norm_num, ?_⟩
  norm_num [enforce_minimum_probability, List.filter]

/-- C3 (amended): for minimum_uniform in [0,1] and a non-empty pmf with
non-negative entries summing to 1, the pass succeeds, keeps the length,
and keeps the total at exactly 1; every eligible entry (non-zero, or zero
when `update_zero_elements` is true) at or below the floor
minimum_uniform/N is raised to exactly the floor, every entry exceeding
the floor is scaled by the common shrink factor (and may therefore end
below the floor), and an ineligible zero entry stays zero. -/
theorem enforce_minimum_probability_spec :
    ∀ (m : ℚ) (uz : Bool) (pmf : List ℚ),
      0 ≤ m → m ≤ 1 → pmf ≠ [] → (∀ p ∈ pmf, 0 ≤ p) → pmf.sum = 1 →
      (enforce_minimum_probability m uz pmf).1 = S_EXPLORATION_OK ∧
      (enforce_minimum_probability m uz pmf).2.length = pmf.length ∧
      (enforce_minimum_probability m uz pmf).2.sum = 1 ∧
      (∀ i, i < pmf.length →
        (((pmf.getD i 0 ≠ 0 ∨ uz = true) ∧
            pmf.getD i 0 ≤ m / pmf.length) →
          (enforce_minimum_probability m uz pmf).2.getD i 0 =
            m / pmf.length) ∧
        ((m / pmf.length < pmf.getD i 0) →
          (enforce_minimum_probability m uz pmf).2.getD i 0 =
            pmf.getD i 0 *
              ((1 - m / pmf.length *
                  (pmf.filter fun p =>
                    (p ≠ 0 ∨ uz = true) ∧ p ≤ m / pmf.length).length) /
                (pmf.filter fun p => m / pmf.length < p).sum)) ∧
        ((pmf.getD i 0 = 0 ∧ uz = false) →
          (enforce_minimum_probability m uz pmf).2.getD i 0 = 0)) := by
  intro m uz pmf h0 h1 hne hnn hsum
  have hN : 0 < pmf.length := List.length_pos.mpr hne
  have hNQ : (0:ℚ) < pmf.length := by exact_mod_cast hN
  have hf0 : 0 ≤ m / pmf.length := div_nonneg h0 hNQ.le
  have hguard : ¬ (m < 0 ∨ 1 < m ∨ pmf.length = 0) := by
    push_neg
    exact ⟨h0, h1, by omega⟩
  simp only [enforce_minimum_probability, if_neg hguard]
  refine ⟨trivial, by simp, ?_, ?_⟩
  · rw [enforce_map_sum]
    exact enforce_sum_eq_one m uz pmf h0 h1 hne hnn hsum
  · intro i hi
    have hglen : i < (pmf.map fun p =>
        if (p ≠ 0 ∨ uz = true) ∧ p ≤ m / pmf.length then m / pmf.length
        else if m / pmf.length < p then
          p * ((1 - m / pmf.length *
              (pmf.filter fun p =>
                (p ≠ 0 ∨ uz = true) ∧ p ≤ m / pmf.length).length) /
            (pmf.filter fun p => m / pmf.length < p).sum)
        else p).length := by simpa using hi
    refine ⟨?_, ?_, ?_⟩
    · intro hc
      rw [List.getD_eq_getElem _ _ hi] at hc
      rw [List.getD_eq_getElem _ _ hglen, List.getElem_map, if_pos hc]
    · intro hc
      rw [List.getD_eq_getElem _ _ hi] at hc
      rw [List.getD_eq_getElem _ _ hglen, List.getElem_map,
        if_neg (fun hcon => absurd hcon.2 (not_le.mpr hc)), if_pos hc]
      rw [List.getD_eq_getElem _ _ hi]
    · intro hc
      rw [List.getD_eq_getElem _ _ hi] at hc
      rw [List.getD_eq_getElem _ _ hglen, List.getElem_map]
      rw [if_neg (by simp [hc.1, hc.2]), if_neg (by rw [hc.1]; exact not_lt.mpr hf0)]
      exact hc.1

/-- Witness for C3 (amended) at minimum_uniform = 1 over [1/2, 1/2]. -/
theorem enforce_minimum_probability_spec_witness :
    (enforce_minimum_probability 1 false [1/2, 1/2]).1 = S_EXPLORATION_OK ∧
    (enforce_minimum_probability 1 false [1/2, 1/2]).2.sum = 1 ∧
    (enforce_minimum_probability 1 false [1/2, 1/2]).2.getD 0 0 =
      1 / ([1/2, 1/2] : List ℚ).length := by
  obtain ⟨hs, -, hsum, hpt⟩ :=
    enforce_minimum_probability_spec 1 false [1/2, 1/2] (by norm_num)
      (by norm_num) (by simp) (by norm_num) (by norm_num)
  refine ⟨hs, hsum, ?_⟩
  have := (hpt 0 (by decide)).1 (by norm_num)
  simpa using this

lemma map_eq_self_of {α : Type} (l : List α) (g : α → α)
    (h : ∀ p ∈ l, g p = p) : l.map g = l := by
  induction l with
  | nil => rfl
  | cons p rest ih =>
    rw [List.map_cons, h p (List.mem_cons_self p rest),
      ih fun q hq => h q (List.mem_cons_of_mem p hq)]

lemma enforce_conforming (m : ℚ) (uz : Bool) (pmf : List ℚ)
    (h0 : 0 ≤ m) (h1 : m ≤ 1) (hne : pmf ≠ [])
    (hnn : ∀ p ∈ pmf, 0 ≤ p) (hsum : pmf.sum = 1)
    (hconf : ∀ p ∈ pmf, (p ≠ 0 ∨ uz = true) → m / pmf.length ≤ p) :
    enforce_minimum_probability m uz pmf = (S_EXPLORATION_OK, pmf) := by
  have hN : 0 < pmf.length := List.length_pos.mpr hne
  have hNQ : (0:ℚ) < pmf.length := by exact_mod_cast hN
  have hf0 : 0 ≤ m / pmf.length := div_nonneg h0 hNQ.le
  have hguard : ¬ (m < 0 ∨ 1 < m ∨ pmf.length = 0) := by
    push_neg
    exact ⟨h0, h1, by omega⟩
  simp only [enforce_minimum_probability, if_neg hguard]
  refine Prod.ext rfl ?_
  show (pmf.map fun p =>
      if (p ≠ 0 ∨ uz = true) ∧ p ≤ m / pmf.length then m / pmf.length
      else if m / pmf.length < p then
        p * ((1 - m / pmf.length *
            (pmf.filter fun p =>
              (p ≠ 0 ∨ uz = true) ∧ p ≤ m / pmf.length).length) /
          (pmf.filter fun p => m / pmf.length < p).sum)
      else p) = pmf
  have hc1elems : ∀ x ∈ (pmf.filter fun p =>
      (p ≠ 0 ∨ uz = true) ∧ p ≤ m / pmf.length), x = m / pmf.length := by
    intro x hx
    obtain ⟨hxm, hx2⟩ := List.mem_filter.mp hx
    have hx3 : (x ≠ 0 ∨ uz = true) ∧ x ≤ m / pmf.length := by simpa using hx2
    exact le_antisymm hx3.2 (hconf x hxm hx3.1)
  have hc1sum : (pmf.filter fun p =>
      (p ≠ 0 ∨ uz = true) ∧ p ≤ m / pmf.length).sum =
      m / pmf.length *
        (pmf.filter fun p =>
          (p ≠ 0 ∨ uz = true) ∧ p ≤ m / pmf.length).length := by
    have hrep : (pmf.filter fun p =>
        (p ≠ 0 ∨ uz = true) ∧ p ≤ m / pmf.length) =
        List.replicate (pmf.filter fun p =>
          (p ≠ 0 ∨ uz = true) ∧ p ≤ m / pmf.length).length
          (m / pmf.length) :=
      List.eq_replicate_iff.mpr ⟨rfl, hc1elems⟩
    rw [hrep, List.sum_replicate, nsmul_eq_mul, List.length_replicate]
    ring
  have hdec := sum_filter_decompose (m / pmf.length) uz pmf
  rw [hsum, hc1sum] at hdec
  apply map_eq_self_of
  intro p hp
  by_cases hcase1 : (p ≠ 0 ∨ uz = true) ∧ p ≤ m / pmf.length
  · rw [if_pos hcase1]
    exact (le_antisymm hcase1.2 (hconf p hp hcase1.1)).symm
  · rw [if_neg hcase1]
    by_cases hcase2 : m / pmf.length < p
    · rw [if_pos hcase2]
      have hUpos : 0 < (pmf.filter fun q => m / pmf.length < q).sum := by
        apply List.sum_pos
        · intro x hx
          have hx2 := (List.mem_filter.mp hx).2
          have : m / pmf.length < x := by simpa using hx2
          linarith
        · intro hnil
          have hpmem : p ∈ (pmf.filter fun q => m / pmf.length < q) :=
            List.mem_filter.mpr ⟨hp, by simpa using hcase2⟩
          rw [hnil] at hpmem
          exact absurd hpmem (List.not_mem_nil p)
      have hUval : (pmf.filter fun q => m / pmf.length < q).sum =
          1 - m / pmf.length *
            (pmf.filter fun q =>
              (q ≠ 0 ∨ uz = true) ∧ q ≤ m / pmf.length).length := by
        linarith
      rw [hUval]
      rw [div_self (by rw [← hUval]; exact hUpos.ne')]
      ring
    · rw [if_neg hcase2]

/-- C5: `enforce_minimum_probability` is idempotent on conforming input:
for minimum_uniform in [0,1], either flag value, and a non-negative pmf
summing to 1 in which every eligible entry already meets the floor,
applying the pass twice gives exactly the same buffer and status as
applying it once (in this exact-arithmetic model the pass is the
identity on such a pmf). -/
theorem enforce_minimum_probability_idempotent :
    ∀ (m : ℚ) (uz : Bool) (pmf : List ℚ),
      0 ≤ m → m ≤ 1 → pmf ≠ [] → (∀ p ∈ pmf, 0 ≤ p) → pmf.sum = 1 →
      (∀ p ∈ pmf, (p ≠ 0 ∨ uz = true) → m / pmf.length ≤ p) →
      enforce_minimum_probability m uz
          (enforce_minimum_probability m uz pmf).2 =
        enforce_minimum_probability m uz pmf := by
  intro m uz pmf h0 h1 hne hnn hsum hconf
  have h := enforce_conforming m uz pmf h0 h1 hne hnn hsum hconf
  rw [h]
  exact h

/-- Witness for C5 at minimum_uniform = 1/2 over the conforming pmf
[1/2, 1/2]. -/
theorem enforce_minimum_probability_idempotent_witness :
    enforce_minimum_probability (1/2) false
        (enforce_minimum_probability (1/2) false [1/2, 1/2]).2 =
      enforce_minimum_probability (1/2) false [1/2, 1/2] := by
  apply enforce_minimum_probability_idempotent (1/2) false [1/2, 1/2]
    (by norm_num) (by norm_num) (by simp) (by norm_num) (by norm_num)
  intro p hp hne
  simp only [List.mem_cons, List.not_mem_nil] at hp
  rcases hp with h | h | h
  · rw [h]; norm_num
  · rw [h]; norm_num
  · exact absurd h (by simp)

end Exploration
